import Mathlib

/-!
Verification of the hybrid retrieval/reranking engine and the multi-agent
research coordinator of the business-enquiry-system repository.

The definitions below are a shallow embedding of
`business_enquiry_system/agents/retrieval.py` and
`business_enquiry_system/agents/multi_agent.py`.  Python floats are modelled
as rationals (all arithmetic the code performs on scores is exact on the
inputs considered), Python dicts as insertion-ordered association lists,
Python lists as Lean lists.  Wall-clock time in the coordinator is modelled
as explicit per-call costs and completion times.
-/

namespace BES

/-! ## Python string helpers

`str.lower`/`str.upper`/`str.strip` and `re.findall(r'\b\w+\b', ...)` on the
ASCII strings this development evaluates. -/

/-- ASCII lower-casing of one character, as Python `str.lower` acts on ASCII. -/
def lowerChar (c : Char) : Char :=
  if 'A' ≤ c ∧ c ≤ 'Z' then Char.ofNat (c.toNat + 32) else c

/-- ASCII upper-casing of one character, as Python `str.upper` acts on ASCII. -/
def upperChar (c : Char) : Char :=
  if 'a' ≤ c ∧ c ≤ 'z' then Char.ofNat (c.toNat - 32) else c

/-- Python `str.lower` (ASCII fragment). -/
def pyLower (s : String) : String := String.mk (s.data.map lowerChar)

/-- Python `str.upper` (ASCII fragment). -/
def pyUpper (s : String) : String := String.mk (s.data.map upperChar)

/-- Python whitespace (the `\s` class and the default `str.strip` set). -/
def isPySpace (c : Char) : Bool :=
  c = ' ' ∨ c = '\t' ∨ c = '\n' ∨ c = '\r' ∨ c = '\x0b' ∨ c = '\x0c'

/-- A character of the regex class `\w` (ASCII fragment). -/
def isWordChar (c : Char) : Bool := c.isAlphanum ∨ c = '_'

/-- Python `str.strip()`: drop leading and trailing whitespace. -/
def pyStrip (s : String) : String :=
  String.mk (((s.data.dropWhile isPySpace).reverse.dropWhile isPySpace).reverse)

/-- `re.findall(r'\b\w+\b', s)`: the maximal runs of word characters. -/
def tokenizeAux : List Char → List Char → List String
  | [], acc => if acc.isEmpty then [] else [String.mk acc.reverse]
  | c :: cs, acc =>
    if isWordChar c then tokenizeAux cs (c :: acc)
    else if acc.isEmpty then tokenizeAux cs []
    else String.mk acc.reverse :: tokenizeAux cs []

/-- Word tokens of a string (the caller lower-cases first, as the source does). -/
def tokenize (s : String) : List String := tokenizeAux s.data []

/-- Substring test on character lists. -/
def listInfix (needle : List Char) : List Char → Bool
  | [] => needle.isEmpty
  | c :: cs => needle.isPrefixOf (c :: cs) ∨ listInfix needle cs

/-- Python `sep in s` (substring containment; `"" in s` is `True`). -/
def strContains (hay needle : String) : Bool :=
  needle.data.isEmpty ∨ listInfix needle.data hay.data

/-- Python `s.split(sep)` for a non-empty separator, on character lists.
The `Nat` argument is fuel, initialised to the length of the input; every
step consumes at least one character, so the fuel never runs out. -/
def splitAux (sep : List Char) : Nat → List Char → List Char → List (List Char)
  | _, [], acc => [acc.reverse]
  | 0, cs, acc => [acc.reverse ++ cs]
  | fuel + 1, cs, acc =>
    if sep.isPrefixOf cs then
      acc.reverse :: splitAux sep fuel (cs.drop sep.length) []
    else
      match cs with
      | c :: cs2 => splitAux sep fuel cs2 (c :: acc)
      | [] => [acc.reverse]

/-- Python `s.split(sep)` (non-empty `sep`). -/
def pySplit (s sep : String) : List String :=
  (splitAux sep.data s.data.length s.data []).map String.mk

/-- Python `"\n".join` / `"\n\n".join` etc. -/
def pyJoin (sep : String) : List String → String
  | [] => ""
  | [x] => x
  | x :: xs => x ++ sep ++ pyJoin sep xs

/-- Python `s[:n]` (prefix of at most `n` characters). -/
def pyTake (s : String) (n : Nat) : String := String.mk (s.data.take n)

/-! ## Insertion-ordered association lists (Python `dict`) -/

/-- First binding of a key in an association list (Python `d.get(k)`). -/
def alistGet {β : Type} (k : String) : List (String × β) → Option β
  | [] => none
  | (k2, v) :: rest => if k2 = k then some v else alistGet k rest

/-- Python `d[k] = v`: replace the first binding in place, else append. -/
def alistSet {β : Type} (k : String) (v : β) : List (String × β) → List (String × β)
  | [] => [(k, v)]
  | (k2, v2) :: rest =>
    if k2 = k then (k2, v) :: rest else (k2, v2) :: alistSet k v rest

/-- Python `d[k] = d.get(k, 0) + x` for rational-valued dicts. -/
def alistAddQ (k : String) (x : ℚ) : List (String × ℚ) → List (String × ℚ)
  | [] => [(k, x)]
  | (k2, v) :: rest =>
    if k2 = k then (k2, v + x) :: rest else (k2, v) :: alistAddQ k x rest

/-- Python `d[k] = d.get(k, 0) + 1` for counters. -/
def alistIncr (k : String) : List (String × Nat) → List (String × Nat)
  | [] => [(k, 1)]
  | (k2, v) :: rest =>
    if k2 = k then (k2, v + 1) :: rest else (k2, v) :: alistIncr k rest

/-- Python `d.setdefault(k, []).append(x)` for list-valued dicts. -/
def alistPush {β : Type} (k : String) (x : β) :
    List (String × List β) → List (String × List β)
  | [] => [(k, [x])]
  | (k2, vs) :: rest =>
    if k2 = k then (k2, vs ++ [x]) :: rest else (k2, vs) :: alistPush k x rest

/-- `max` over the values of a non-empty score dict (Python `max(d.values())`;
`0` for the empty dict, which the callers never pass). -/
def maxVals : List (String × ℚ) → ℚ
  | [] => 0
  | (_, v) :: rest => rest.foldl (fun m p => max m p.2) v

/-- Maximum of a non-empty list of rationals (Python `max(nums)`). -/
def listMax : List ℚ → ℚ
  | [] => 0
  | v :: rest => rest.foldl max v

/-- Minimum of a non-empty list of rationals (Python `min(nums)`). -/
def listMin : List ℚ → ℚ
  | [] => 0
  | v :: rest => rest.foldl min v

/-! ## Data model: retrieval.py -/

/-- `retrieval.Chunk`.  The `entities` dict (lines 239-264 of the source) is
omitted: its value never feeds back into chunking, indexing, search, rerank
or any property verified here, and the source stores it as `list(set(...))`,
whose ordering Python leaves unspecified. -/
structure Chunk where
  chunk_id : String
  content : String
  doc_id : String
  start_pos : Nat := 0
  end_pos : Nat := 0
  chunk_index : Nat := 0
  total_chunks : Nat := 1
  section_title : Option String := none
  context_summary : Option String := none
  domain : Option String := none
  tenant_id : Option String := none
  tags : List String := []
  deriving DecidableEq, Repr

/-- `retrieval.RetrievalResult`. -/
structure RetrievalResult where
  chunk : Chunk
  keyword_score : ℚ := 0
  semantic_score : ℚ := 0
  rerank_score : ℚ := 0
  final_score : ℚ := 0
  retrieval_method : String := "hybrid"
  deriving DecidableEq, Repr

/-! ## ContextualChunker -/

/-- Constructor arguments of `ContextualChunker`. -/
structure ChunkerConfig where
  chunk_size : Nat := 500
  chunk_overlap : Nat := 100
  min_chunk_size : Nat := 50
  deriving DecidableEq, Repr

/-- One line matched against `^(#{1,6})\s+(.+)$` (`ContextualChunker.
_split_by_sections`); returns the captured title on a match.  When the text
after the hashes is all whitespace of length `k ≥ 2`, the greedy `\s+`
backtracks to `k - 1` characters and `.+` captures the final whitespace
character, exactly as Python's engine does. -/
def parseHeader (line : String) : Option String :=
  let cs := line.data
  let nh := (cs.takeWhile (· = '#')).length
  let rest := cs.drop nh
  if 1 ≤ nh ∧ nh ≤ 6 then
    let ws := rest.takeWhile isPySpace
    let rem := rest.drop ws.length
    if ws.length = 0 then none
    else if ¬ rem.isEmpty then some (String.mk rem)
    else if 2 ≤ ws.length then some (String.mk (ws.drop (ws.length - 1)))
    else none
  else none

/-- The loop body of `_split_by_sections`. -/
def sbsGo : List String → Option String → List String → List (Option String × String)
  | [], title, cur =>
    if cur.isEmpty then [] else [(title, pyJoin "\n" cur.reverse)]
  | l :: ls, title, cur =>
    match parseHeader l with
    | some t =>
      (if cur.isEmpty then [] else [(title, pyJoin "\n" cur.reverse)])
        ++ sbsGo ls (some t) []
    | none => sbsGo ls title (l :: cur)

/-- `ContextualChunker._split_by_sections`. -/
def split_by_sections (content : String) : List (Option String × String) :=
  let sections := sbsGo (pySplit content "\n") none []
  if sections.isEmpty then [(none, content)] else sections

/-- The paragraph-accumulation loop of `ContextualChunker._chunk_text`.
The accumulator `cur` holds the current chunk's paragraphs in reverse
(so `cur.head?` is Python's `current_chunk[-1]`). -/
def chunkTextGo (cfg : ChunkerConfig) : List String → List String → Nat → List String
  | [], cur, _ => if cur.isEmpty then [] else [pyJoin "\n\n" cur.reverse]
  | p :: ps, cur, curLen =>
    if cfg.chunk_size < curLen + p.length ∧ ¬ cur.isEmpty then
      let saved := pyJoin "\n\n" cur.reverse
      let keep : List String × Nat :=
        if 0 < cfg.chunk_overlap ∧ ¬ cur.isEmpty then
          match cur.head? with
          | some ov => if ov.length ≤ cfg.chunk_overlap then ([ov], ov.length) else ([], 0)
          | none => ([], 0)
        else ([], 0)
      saved :: chunkTextGo cfg ps (p :: keep.1) (keep.2 + p.length)
    else
      chunkTextGo cfg ps (p :: cur) (curLen + p.length)

/-- `ContextualChunker._chunk_text`. -/
def chunk_text (cfg : ChunkerConfig) (text : String) : List String :=
  let chunks := chunkTextGo cfg (pySplit text "\n\n") [] 0
  if chunks.isEmpty then [text] else chunks

/-- `ContextualChunker._generate_chunk_id`.  The source appends the first 8
hex digits of `md5(f"{doc_id}:{index}")`; the hash is abstracted as the
function argument `hashFn` (no verified property depends on its value). -/
def generate_chunk_id (hashFn : String → String) (doc_id : String) (index : Nat) : String :=
  doc_id ++ ":chunk:" ++ toString index ++ ":" ++ hashFn (doc_id ++ ":" ++ toString index)

/-- `ContextualChunker._generate_context_summary`. -/
def generate_context_summary (title : Option String) (chunk_text_ : String)
    (chunk_num total_in_section : Nat) : String :=
  let parts :=
    (match title with
     | some t => if t ≠ "" then ["From section: " ++ t] else []
     | none => [])
  let parts := parts ++
    (if 1 < total_in_section then
       ["Part " ++ toString (chunk_num + 1) ++ " of " ++ toString total_in_section]
     else [])
  let first_sentence := pyStrip ((pySplit chunk_text_ ".").headI)
  let parts := parts ++
    (if first_sentence ≠ "" ∧ first_sentence.length < 100 then
       ["Starts with: " ++ first_sentence] else [])
  if parts.isEmpty then "" else pyJoin " | " parts

/-- The `(section_title, chunk_text, i, len(section_chunks))` rows produced by
the two nested loops of `ContextualChunker.chunk_document`, in order. -/
def chunk_rows (cfg : ChunkerConfig) (content : String) :
    List (Option String × String × Nat × Nat) :=
  (split_by_sections content).flatMap fun ts =>
    if (pyStrip ts.2).length < cfg.min_chunk_size then []
    else
      let scs := chunk_text cfg ts.2
      ((List.range scs.length).zip scs).map fun p => (ts.1, p.2, p.1, scs.length)

/-- `ContextualChunker.chunk_document`.  The source appends chunks with a
running `chunk_index` counter and then sets every chunk's `total_chunks` to
the final count; here the counter is rendered as the position of the row in
the flattened row list, which coincides with the counter value. -/
def chunk_document (hashFn : String → String) (cfg : ChunkerConfig)
    (content doc_id : String) (domain tenant_id : Option String)
    (tags : Option (List String)) : List Chunk :=
  let rows := chunk_rows cfg content
  let n := rows.length
  ((List.range n).zip rows).map fun p =>
    { chunk_id := generate_chunk_id hashFn doc_id p.1
      content := p.2.2.1
      doc_id := doc_id
      chunk_index := p.1
      total_chunks := n
      section_title := p.2.1
      context_summary := some (generate_context_summary p.2.1 p.2.2.1 p.2.2.2.1 p.2.2.2.2)
      domain := domain
      tenant_id := tenant_id
      tags := tags.getD [] }

/-! ## HybridRetriever -/

/-- The mutable state of `HybridRetriever`: the score-fusion configuration,
the inverted index `_index` and the chunk store `_chunks` (both Python
dicts, modelled as insertion-ordered association lists). -/
structure RetrieverState where
  keyword_weight : ℚ := 2/5
  semantic_weight : ℚ := 3/5
  use_semantic : Bool := false
  index : List (String × List (String × ℚ)) := []
  chunks : List (String × Chunk) := []
  deriving DecidableEq, Repr

/-- A fresh `HybridRetriever(keyword_weight, semantic_weight, use_semantic)`. -/
def initHybrid (kw sem : ℚ) (useSem : Bool) : RetrieverState :=
  { keyword_weight := kw, semantic_weight := sem, use_semantic := useSem }

/-- Append `(chunk_id, tf)` to the posting list of `token`, creating the
posting list if absent (`HybridRetriever._index_chunk`, index update). -/
def postAdd (token chunk_id : String) (tf : ℚ) :
    List (String × List (String × ℚ)) → List (String × List (String × ℚ))
  | [] => [(token, [(chunk_id, tf)])]
  | (t, ps) :: rest =>
    if t = token then (t, ps ++ [(chunk_id, tf)]) :: rest
    else (t, ps) :: postAdd token chunk_id tf rest

/-- `HybridRetriever._index_chunk`. -/
def index_chunk (s : RetrieverState) (c : Chunk) : RetrieverState :=
  let tokens := tokenize (pyLower c.content)
  let token_counts := tokens.foldl
    (fun m t => if 2 < t.length then alistIncr t m else m) []
  let total_tokens : Nat := if tokens.length = 0 then 1 else tokens.length
  let newIndex := token_counts.foldl
    (fun ix p => postAdd p.1 c.chunk_id ((p.2 : ℚ) / (total_tokens : ℚ)) ix)
    s.index
  { s with index := newIndex }

/-- One iteration of `HybridRetriever.add_chunks`: store the chunk under its
id (overwriting any previous binding) and index its content.  Note that the
index update appends postings unconditionally, even when the chunk id was
already present in the store. -/
def add_chunk (s : RetrieverState) (c : Chunk) : RetrieverState :=
  index_chunk { s with chunks := alistSet c.chunk_id c s.chunks } c

/-- `HybridRetriever.add_chunks`. -/
def add_chunks (s : RetrieverState) (cs : List Chunk) : RetrieverState :=
  cs.foldl add_chunk s

/-- One query-token step of `HybridRetriever._keyword_search`: if the token
is indexed, compute its IDF weight and accumulate `tf * idf` for each
posting. -/
def kw_token_step (s : RetrieverState) (scores : List (String × ℚ))
    (token : String) : List (String × ℚ) :=
  match alistGet token s.index with
  | none => scores
  | some postings =>
    let df : ℚ := (postings.length : ℚ)
    let td : Nat := if s.chunks.length = 0 then 1 else s.chunks.length
    let total_docs : ℚ := (td : ℚ)
    let idf : ℚ := 1 + (total_docs - df + 1/2) / (df + 1/2)
    postings.foldl (fun sc p => alistAddQ p.1 (p.2 * idf) sc) scores

/-- The raw (pre-normalization) accumulated `tf * idf` scores of
`HybridRetriever._keyword_search`. -/
def keyword_scores_raw (s : RetrieverState) (query : String) : List (String × ℚ) :=
  (tokenize (pyLower query)).foldl (kw_token_step s) []

/-- `HybridRetriever._keyword_search`: accumulate `tf * idf` per chunk over
the query tokens, then divide every score by the maximum observed. -/
def keyword_search (s : RetrieverState) (query : String) : List (String × ℚ) :=
  let scores := keyword_scores_raw s query
  if ¬ scores.isEmpty then
    let max_score := maxVals scores
    if 0 < max_score then scores.map (fun p => (p.1, p.2 / max_score)) else scores
  else scores

/-- `HybridRetriever._semantic_search`: the source is a placeholder that
always returns the empty mapping. -/
def semantic_search (_s : RetrieverState) (_query : String) : List (String × ℚ) := []

/-- Python truthiness of an optional string (`None` and `""` are falsy). -/
def truthy : Option String → Bool
  | none => false
  | some s => s ≠ ""

/-- The `domain` filter test of `HybridRetriever.search`
(line `if domain and chunk.domain and chunk.domain.upper() != domain.upper()`). -/
def domain_excluded (domain : Option String) (c : Chunk) : Bool :=
  truthy domain ∧ truthy c.domain ∧ pyUpper (c.domain.getD "") ≠ pyUpper (domain.getD "")

/-- The `tenant_id` filter test of `HybridRetriever.search`
(line `if tenant_id and chunk.tenant_id and chunk.tenant_id != tenant_id`). -/
def tenant_excluded (tenant_id : Option String) (c : Chunk) : Bool :=
  truthy tenant_id ∧ truthy c.tenant_id ∧ c.tenant_id.getD "" ≠ tenant_id.getD ""

/-- The loop body of `HybridRetriever.search` for one candidate chunk id:
look the chunk up, apply the domain/tenant filters, fuse the scores, apply
the `min_score` threshold. -/
def considerChunk (s : RetrieverState) (semantic_scores : List (String × ℚ))
    (domain tenant_id : Option String) (min_score : ℚ)
    (p : String × ℚ) : Option RetrievalResult :=
  match alistGet p.1 s.chunks with
  | none => none
  | some c =>
    if domain_excluded domain c then none
    else if tenant_excluded tenant_id c then none
    else
      let kw_score := p.2
      let sem_score := (alistGet p.1 semantic_scores).getD 0
      let final_score :=
        if s.use_semantic then
          s.keyword_weight * kw_score + s.semantic_weight * sem_score
        else kw_score
      if final_score < min_score then none
      else some
        { chunk := c
          keyword_score := kw_score
          semantic_score := sem_score
          final_score := final_score
          retrieval_method := if s.use_semantic then "hybrid" else "keyword" }

/-- Descending order on fused scores, as `results.sort(key=lambda r:
r.final_score, reverse=True)` (a stable sort, like `List.insertionSort`). -/
def byFinalDesc (a b : RetrievalResult) : Prop := b.final_score ≤ a.final_score

instance : DecidableRel byFinalDesc := fun a b =>
  inferInstanceAs (Decidable (b.final_score ≤ a.final_score))

instance : IsTotal RetrievalResult byFinalDesc := ⟨fun a b => le_total b.final_score a.final_score⟩

instance : IsTrans RetrievalResult byFinalDesc :=
  ⟨fun _ _ _ h1 h2 => le_trans h2 h1⟩

/-- `HybridRetriever.search`.  The source iterates over
`set(keyword_scores) | set(semantic_scores)`; the semantic mapping is always
empty, so the candidate ids are exactly the keys of the keyword score dict
(whose keys are distinct); Python leaves the iteration order of the set
unspecified, and we fix it to the dict's insertion order — no verified
property depends on the order of score ties. -/
def searchR (s : RetrieverState) (query : String) (limit : Nat)
    (domain tenant_id : Option String := none) (min_score : ℚ := 0) :
    List RetrievalResult :=
  let kw := keyword_search s query
  let sem := if s.use_semantic then semantic_search s query else []
  let results := kw.filterMap (considerChunk s sem domain tenant_id min_score)
  (results.insertionSort byFinalDesc).take limit

/-! ## CrossEncoderReranker -/

/-- `CrossEncoderReranker._score_pair` (the heuristic path: no model is ever
loaded in the source). -/
def score_pair (query document : String) : ℚ :=
  let query_lower := pyLower query
  let doc_lower := pyLower document
  if strContains doc_lower query_lower then 1
  else
    let query_words := (tokenize query_lower).dedup
    let doc_words := (tokenize doc_lower).dedup
    if query_words.isEmpty then 0
    else
      let overlap : ℚ :=
        ((query_words.filter (· ∈ doc_words)).length : ℚ) / (query_words.length : ℚ)
      let first_100 := pyTake doc_lower 100
      let early_matches : ℚ :=
        ((query_words.filter (fun w => strContains first_100 w)).length : ℚ)
      let early_bonus := early_matches / (query_words.length : ℚ) * (2/10)
      min 1 (overlap + early_bonus)

/-- `CrossEncoderReranker.rerank`: rescore every result, refuse the final
score as `0.3 * old + 0.7 * rerank`, re-sort descending, and truncate to
`top_k` when that argument is truthy (Python: `if top_k:`, so `0` does not
truncate). -/
def rerank (query : String) (results : List RetrievalResult)
    (top_k : Option Nat) : List RetrievalResult :=
  if results.isEmpty then results
  else
    let scored := results.map fun r =>
      let rs := score_pair query r.chunk.content
      { r with rerank_score := rs, final_score := 3/10 * r.final_score + 7/10 * rs }
    let sorted := scored.insertionSort byFinalDesc
    match top_k with
    | some k => if k ≠ 0 then sorted.take k else sorted
    | none => sorted

/-! ## EnhancedRetriever -/

/-- The state of `EnhancedRetriever`: a chunker configuration, a hybrid
retriever, and whether a reranker was constructed. -/
structure EnhancedRetrieverState where
  chunker : ChunkerConfig
  retriever : RetrieverState
  use_reranking : Bool
  deriving DecidableEq, Repr

/-- `EnhancedRetriever(chunk_size, use_semantic, use_reranking)`. -/
def initEnhanced (chunk_size : Nat := 500) (use_semantic : Bool := false)
    (use_reranking : Bool := true) : EnhancedRetrieverState :=
  { chunker := { chunk_size := chunk_size }
    retriever := initHybrid (2/5) (3/5) use_semantic
    use_reranking := use_reranking }

/-- `EnhancedRetriever.index_document`: chunk the document, add the chunks,
return the new state together with the chunk count. -/
def index_document (hashFn : String → String) (st : EnhancedRetrieverState)
    (content doc_id : String) (domain tenant_id : Option String := none)
    (tags : Option (List String) := none) : EnhancedRetrieverState × Nat :=
  let cs := chunk_document hashFn st.chunker content doc_id domain tenant_id tags
  ({ st with retriever := add_chunks st.retriever cs }, cs.length)

/-- `EnhancedRetriever.search`: over-fetch `3 * limit` candidates when
reranking, rerank, truncate to `limit`. -/
def searchE (st : EnhancedRetrieverState) (query : String) (limit : Nat)
    (domain tenant_id : Option String := none) (rrk : Bool := true) :
    List RetrievalResult :=
  let initial_limit := if rrk ∧ st.use_reranking then limit * 3 else limit
  let results := searchR st.retriever query initial_limit domain tenant_id 0
  let results :=
    if rrk ∧ st.use_reranking ∧ ¬ results.isEmpty then rerank query results (some limit)
    else results
  results.take limit

/-! ## Data model: multi_agent.py -/

/-- `multi_agent.ResearchFinding`.  The `entities` field (an untyped
`Dict[str, Any]`, never read by the coordinator) is omitted. -/
structure ResearchFinding where
  source_agent : String
  content : String
  confidence : ℚ := 1/2
  sources : List String := []
  deriving DecidableEq, Repr

/-- One conflict dict produced by `MultiAgentCoordinator._detect_conflicts`:
`{"type": ..., "context": ..., "values": ...}`.  The `type` key is named
`ctype` here. -/
structure NumericConflict where
  ctype : String
  context : String
  values : List (String × ℚ)
  deriving DecidableEq, Repr

/-- `multi_agent.SynthesizedResult`. -/
structure SynthesizedResult where
  summary : String
  key_points : List String
  findings : List ResearchFinding
  consensus_confidence : ℚ
  conflicts : List NumericConflict
  sources : List String
  deriving DecidableEq, Repr

/-! ### The conflict regex

`_detect_conflicts` scans each finding's content with
`re.findall(r'([\w\s]+)[:\s]+([₦N]?\d+(?:,\d+)*(?:\.\d+)?)', content)`.
The functions below reproduce that pattern's leftmost scan with greedy
quantifiers and backtracking. -/

/-- The class `[\w\s]` of the first capture group. -/
def isG1Char (c : Char) : Bool := isWordChar c ∨ isPySpace c

/-- The separator class `[:\s]`. -/
def isSepChar (c : Char) : Bool := c = ':' ∨ isPySpace c

/-- The currency class `[₦N]`. -/
def isCurChar (c : Char) : Bool := c = '₦' ∨ c = 'N'

/-- Greedy `(?:,\d+)*`: consume as many `,digits` groups as possible,
returning the consumed characters and the remainder.  The `Nat` argument is
fuel, initialised to the input length; every recursive step consumes at
least two characters, so the fuel never runs out. -/
def commaGroupsGo : Nat → List Char → List Char × List Char
  | 0, cs => ([], cs)
  | fuel + 1, cs =>
    match cs with
    | ',' :: cs2 =>
      let ds := cs2.takeWhile Char.isDigit
      if ds.isEmpty then ([], ',' :: cs2)
      else
        let r := commaGroupsGo fuel (cs2.drop ds.length)
        (',' :: (ds ++ r.1), r.2)
    | other => ([], other)

/-- Greedy `(?:,\d+)*` at the head of the input. -/
def commaGroups (cs : List Char) : List Char × List Char :=
  commaGroupsGo cs.length cs

/-- Greedy `(?:\.\d+)?`. -/
def decOpt : List Char → List Char × List Char
  | '.' :: cs =>
    let ds := cs.takeWhile Char.isDigit
    if ds.isEmpty then ([], '.' :: cs) else ('.' :: ds, cs.drop ds.length)
  | cs => ([], cs)

/-- `\d+(?:,\d+)*(?:\.\d+)?` at the head of the input. -/
def numTail (cs : List Char) : Option (List Char × List Char) :=
  let ds := cs.takeWhile Char.isDigit
  if ds.isEmpty then none
  else
    let r1 := commaGroups (cs.drop ds.length)
    let r2 := decOpt r1.2
    some (ds ++ r1.1 ++ r2.1, r2.2)

/-- `[₦N]?\d+(?:,\d+)*(?:\.\d+)?` at the head of the input (the greedy
optional currency symbol is tried first, then dropped on failure). -/
def numParse : List Char → Option (List Char × List Char)
  | [] => none
  | c :: cs =>
    if isCurChar c then
      match numTail cs with
      | some r => some (c :: r.1, r.2)
      | none => numTail (c :: cs)
    else numTail (c :: cs)

/-- Try separator lengths `k, k-1, ..., 1` (the greedy `[:\s]+` backtracks
one character at a time); the initial `k` is the maximal run of separator
characters. -/
def trySepFrom (cs : List Char) : Nat → Option (List Char × List Char)
  | 0 => none
  | k + 1 =>
    match numParse (cs.drop (k + 1)) with
    | some r => some r
    | none => trySepFrom cs k

/-- Try group-1 lengths `k, k-1, ..., 1` (the greedy `[\w\s]+` backtracks one
character at a time); for each the separator is retried from its maximal
run.  Returns `(group1, group2, remainder)`. -/
def tryG1From (cs : List Char) : Nat → Option (List Char × List Char × List Char)
  | 0 => none
  | k + 1 =>
    let rest := cs.drop (k + 1)
    match trySepFrom rest (rest.takeWhile isSepChar).length with
    | some r => some (cs.take (k + 1), r.1, r.2)
    | none => tryG1From cs k

/-- Match the conflict pattern anchored at the head of the input. -/
def matchAt (cs : List Char) : Option (List Char × List Char × List Char) :=
  tryG1From cs (cs.takeWhile isG1Char).length

/-- The `re.findall` scan: attempt a match at each position left to right,
resuming after the end of every match.  The fuel is the input length; both
continuations strictly shorten the input, so the fuel never runs out. -/
def findAllGo : Nat → List Char → List (String × String)
  | 0, _ => []
  | fuel + 1, cs =>
    match cs with
    | [] => []
    | _ :: cs2 =>
      match matchAt cs with
      | some r => (String.mk r.1, String.mk r.2.1) :: findAllGo fuel r.2.2
      | none => findAllGo fuel cs2

/-- All `(context, number)` pairs the conflict regex finds in a string. -/
def findNumberPairs (s : String) : List (String × String) :=
  findAllGo s.data.length s.data

/-- `number.replace('₦', '').replace('N', '').replace(',', '')`. -/
def stripNumChars (cs : List Char) : List Char :=
  cs.filter fun c => ¬ (c = '₦' ∨ c = 'N' ∨ c = ',')

/-- Decimal value of a digit string. -/
def digitsVal (cs : List Char) : Nat :=
  cs.foldl (fun n c => n * 10 + (c.toNat - 48)) 0

/-- Non-empty all-digit string. -/
def isDigits (cs : List Char) : Bool := ¬ cs.isEmpty ∧ cs.all Char.isDigit

/-- Python `float(s)` on the strings the conflict scanner can produce
(digits with at most one decimal point; anything else raises `ValueError`,
modelled as `none`). -/
def parseFloatQ (cs : List Char) : Option ℚ :=
  match splitAux ['.'] cs.length cs [] with
  | [ip] => if isDigits ip then some ((digitsVal ip : ℚ)) else none
  | [ip, fp] =>
    if isDigits ip ∧ isDigits fp then
      some ((digitsVal ip : ℚ) + (digitsVal fp : ℚ) / ((10 : ℚ) ^ fp.length))
    else none
  | _ => none

/-- `MultiAgentCoordinator._detect_conflicts`. -/
def detect_conflicts (findings : List ResearchFinding) : List NumericConflict :=
  let numbers_by_agent : List (String × List (String × ℚ)) :=
    findings.foldl
      (fun m f =>
        (findNumberPairs f.content).foldl
          (fun m p =>
            let key := pyLower (pyStrip p.1)
            match parseFloatQ (stripNumChars p.2.data) with
            | none => m
            | some v => alistPush key (f.source_agent, v) m)
          m)
      []
  numbers_by_agent.filterMap fun kv =>
    if 1 < kv.2.length then
      let nums := kv.2.map Prod.snd
      if 0 < listMax nums ∧ 1/10 < (listMax nums - listMin nums) / listMax nums then
        some { ctype := "numeric_conflict", context := kv.1, values := kv.2 }
      else none
    else none

/-! ### Synthesis -/

/-- The inner sentence loop of `_extract_key_points`: the first stripped
sentence longer than 20 characters that is not already a key point. -/
def pickSentence (key_points : List String) : List String → Option String
  | [] => none
  | s :: rest =>
    let s2 := pyStrip s
    if 20 < s2.length ∧ s2 ∉ key_points then some s2
    else pickSentence key_points rest

/-- `MultiAgentCoordinator._extract_key_points`. -/
def extract_key_points (findings : List ResearchFinding) : List String :=
  (findings.foldl
    (fun kps f =>
      match pickSentence kps (pySplit f.content ".") with
      | some s => kps ++ [s]
      | none => kps)
    []).take 5

/-- Python `max(findings, key=lambda f: f.confidence)` (first maximum). -/
def maxByConfidence : List ResearchFinding → Option ResearchFinding
  | [] => none
  | f :: fs =>
    some (fs.foldl (fun best g => if best.confidence < g.confidence then g else best) f)

/-- `MultiAgentCoordinator._generate_summary`. -/
def generate_summary (query : String) (findings : List ResearchFinding) : String :=
  let high_confidence := findings.filter fun f => 1/2 < f.confidence
  match maxByConfidence high_confidence with
  | some best =>
    let s := "Based on " ++ toString findings.length ++ " sources: "
      ++ pyTake best.content 200
    if 1 < high_confidence.length then
      s ++ " (Corroborated by " ++ toString (high_confidence.length - 1)
        ++ " other sources)"
    else s
  | none =>
    match findings with
    | f :: _ => "Limited information found: " ++ pyTake f.content 200
    | [] => "No relevant information found for: " ++ query

/-- Mean confidence of a finding list (`sum(confidences) / len(confidences)`). -/
def meanConfidence (findings : List ResearchFinding) : ℚ :=
  (findings.map (·.confidence)).sum / ((findings.length : ℚ))

/-- Population variance of the confidences. -/
def varianceConfidence (findings : List ResearchFinding) : ℚ :=
  let avg := meanConfidence findings
  ((findings.map (·.confidence)).map (fun c => (c - avg) ^ 2)).sum
    / ((findings.length : ℚ))

/-- `MultiAgentCoordinator._synthesize`.  `unique_sources` is
`list(set(all_sources))` in the source, whose order Python leaves
unspecified; it is fixed here to first-occurrence order. -/
def synthesize (query : String) (findings : List ResearchFinding) : SynthesizedResult :=
  if findings.isEmpty then
    { summary := "No research findings available."
      key_points := []
      findings := []
      consensus_confidence := 0
      conflicts := []
      sources := [] }
  else
    let all_sources := findings.flatMap (·.sources)
    let unique_sources := all_sources.dedup
    let avg_confidence := meanConfidence findings
    let variance := varianceConfidence findings
    let consensus_confidence := avg_confidence * (1 - min 1 variance)
    { summary := generate_summary query findings
      key_points := extract_key_points findings
      findings := findings
      consensus_confidence := consensus_confidence
      conflicts := detect_conflicts findings
      sources := unique_sources }

/-! ## MultiAgentCoordinator: execution strategies

A `ResearchAgent.research` call is an arbitrary Python callable that either
returns a `ResearchFinding` or raises; it is modelled as a function into
`Except String ResearchFinding` (the error carries `str(e)`).  Wall-clock
time, which the source reads with `time.time()`, is modelled by a fixed
`cost` per research call in sequential mode and by explicit completion
times of the submitted `(agent, task)` units in parallel mode. -/

/-- A research worker. -/
structure MAgent where
  name : String
  focus_areas : List String
  research : String → Option String → Except String ResearchFinding
  cost : ℚ := 0

/-- `ResearchAgent.can_handle` (an empty focus area is falsy in Python and
also accepts). -/
def can_handle (a : MAgent) (_query : String) (focus_area : Option String) : Bool :=
  if ¬ truthy focus_area then true
  else (a.focus_areas.map pyLower).contains (pyLower (focus_area.getD ""))

/-- `multi_agent.ResearchTask` (the fields the executors read and write;
`result`/`duration_ms` are write-only in the source and omitted). -/
structure MTask where
  task_id : String
  query : String
  focus_area : Option String := none
  priority : Int := 1
  status : String := "pending"
  error : Option String := none
  deriving DecidableEq, Repr

/-- Descending priority, as `sorted(tasks, key=lambda t: -t.priority)`. -/
def byPriorityDesc (a b : MTask) : Prop := b.priority ≤ a.priority

instance : DecidableRel byPriorityDesc := fun a b =>
  inferInstanceAs (Decidable (b.priority ≤ a.priority))

instance : IsTotal MTask byPriorityDesc := ⟨fun a b => le_total b.priority a.priority⟩

instance : IsTrans MTask byPriorityDesc := ⟨fun _ _ _ h1 h2 => le_trans h2 h1⟩

/-- The inner `for agent in self.agents` loop of `_execute_sequential`: run
the first capable agent; on an exception mark the task failed (recording the
message) and — the loop has no `break` in its `except` branch — go on to the
next capable agent.  Returns the finding (if any), the task's final state,
and the elapsed time after all attempted calls. -/
def run_first (t : MTask) (elapsed : ℚ) :
    List MAgent → Option ResearchFinding × MTask × ℚ
  | [] => (none, t, elapsed)
  | a :: rest =>
    if can_handle a t.query t.focus_area then
      match a.research t.query t.focus_area with
      | Except.ok f => (some f, { t with status := "completed" }, elapsed + a.cost)
      | Except.error e =>
        run_first { t with status := "failed", error := some e } (elapsed + a.cost) rest
    else run_first t elapsed rest

/-- The task loop of `_execute_sequential`, threading the elapsed time. -/
def execSeqGo (agents : List MAgent) (timeout : ℚ) :
    List MTask → ℚ → List ResearchFinding × List MTask
  | [], _ => ([], [])
  | t :: ts, elapsed =>
    if timeout < elapsed then
      let r := execSeqGo agents timeout ts elapsed
      (r.1, { t with status := "timeout" } :: r.2)
    else
      match run_first t elapsed agents with
      | (some f, t2, e2) =>
        let r := execSeqGo agents timeout ts e2
        (f :: r.1, t2 :: r.2)
      | (none, t2, e2) =>
        let r := execSeqGo agents timeout ts e2
        (r.1, t2 :: r.2)

/-- `MultiAgentCoordinator._execute_sequential`: sort by descending priority
and run the tasks in order under the shared deadline.  Returns the findings
and the tasks' final states (in execution order). -/
def execute_sequential (agents : List MAgent) (tasks : List MTask)
    (timeout : ℚ) : List ResearchFinding × List MTask :=
  execSeqGo agents timeout (tasks.insertionSort byPriorityDesc) 0

/-- One `(agent, task)` unit submitted to the pool by `_execute_parallel`:
its wall-clock completion time (determined by the pool schedule and the
worker's running time) and its outcome, plus the index of its task in the
task list. -/
structure PUnitM where
  ctime : ℚ
  outcome : Except String ResearchFinding
  taskIdx : Nat

/-- Completion order, in which `as_completed` yields the futures. -/
def byCtime (a b : PUnitM) : Prop := a.ctime ≤ b.ctime

instance : DecidableRel byCtime := fun a b =>
  inferInstanceAs (Decidable (a.ctime ≤ b.ctime))

instance : IsTotal PUnitM byCtime := ⟨fun a b => le_total a.ctime b.ctime⟩

instance : IsTrans PUnitM byCtime := ⟨fun _ _ _ h1 h2 => le_trans h1 h2⟩

/-- Update the `i`-th task in place. -/
def modifyAt {α : Type} (f : α → α) : List α → Nat → List α
  | [], _ => []
  | x :: xs, 0 => f x :: xs
  | x :: xs, n + 1 => x :: modifyAt f xs n

/-- The collection loop of `_execute_parallel`:
`for future in as_completed(futures, timeout=timeout)` yields completed
futures in completion order, and raises `concurrent.futures.TimeoutError` —
which nothing in the source catches — as soon as the next future has not
completed within `timeout` seconds of the call.  Inside the loop,
`future.result()` re-raises a worker exception, which is caught and recorded
on the task; after each iteration the source checks the elapsed time again
and breaks (this check can only fire after a future that completed past the
deadline, which `as_completed` never yields, but it is kept faithfully). -/
def execParGo (timeout : ℚ) :
    List PUnitM → List MTask → List ResearchFinding →
    Except String (List ResearchFinding × List MTask)
  | [], tasks, acc => Except.ok (acc.reverse, tasks)
  | u :: us, tasks, acc =>
    if timeout < u.ctime then Except.error "concurrent.futures.TimeoutError"
    else
      match u.outcome with
      | Except.ok f =>
        let tasks2 := modifyAt (fun t => { t with status := "completed" }) tasks u.taskIdx
        if timeout < u.ctime then Except.ok ((f :: acc).reverse, tasks2)
        else execParGo timeout us tasks2 (f :: acc)
      | Except.error e =>
        let tasks2 :=
          modifyAt (fun t => { t with status := "failed", error := some e }) tasks u.taskIdx
        if timeout < u.ctime then Except.ok (acc.reverse, tasks2)
        else execParGo timeout us tasks2 acc

/-- `MultiAgentCoordinator._execute_parallel` over an explicit completion
schedule of the submitted units. -/
def execute_parallel (units : List PUnitM) (tasks : List MTask)
    (timeout : ℚ) : Except String (List ResearchFinding × List MTask) :=
  execParGo timeout (units.insertionSort byCtime) tasks []

/-- `MultiAgentCoordinator.research` restricted to the Parallel strategy:
execute, then synthesize.  An uncaught exception from the execution phase
(such as the `as_completed` timeout) propagates, so no `SynthesizedResult`
is produced. -/
def research_parallel (query : String) (units : List PUnitM)
    (tasks : List MTask) (timeout : ℚ) : Except String SynthesizedResult :=
  (execute_parallel units tasks timeout).map fun r => synthesize query r.1

/-! ## Concrete scenarios -/

/-- A stand-in for the md5 suffix function (no property depends on it). -/
def hash0 : String → String := fun _ => ""

/-- The document of the end-to-end example: two markdown sections,
"Pricing" and "Limits", with the bodies given by the specification. -/
def c1_content : String :=
  "# Pricing\nOur rate is 50 naira per unit.\n# Limits\nMaximum order is 1000 units."

/-- The result of the end-to-end example: index `c1_content` into a
default-configuration pipeline and search `"price"` with `limit = 1`. -/
def c1_results : List RetrievalResult :=
  searchE (index_document hash0 (initEnhanced 500 false true)
    c1_content "doc1" none none none).1 "price" 1 none none true

/-- C1, counterexample: with the default pipeline configuration, indexing the
two-section example document and searching `"price"` with `limit = 1` does
NOT return exactly one result — the claimed result count is wrong. -/
theorem c1_search_price_not_one_result : c1_results.length ≠ 1 := by decide

/-- C1, amended: the example search returns no results at all.  Both section
bodies (30 and 28 characters) are shorter than the default
`min_chunk_size = 50`, so `chunk_document` drops both sections and nothing
is indexed; moreover the token `price` occurs in neither body, so even
retained chunks would not match the query. -/
theorem c1_search_price_returns_empty : c1_results = [] := by decide

/-! ### C2: parallel deadline -/

/-- The fast worker's finding (completes at t = 1s). -/
def c2_fast_finding : ResearchFinding :=
  { source_agent := "fast_worker", content := "rate info found quickly"
    confidence := 8/10, sources := ["doc1"] }

/-- The slow worker's finding (would complete at t = 100s). -/
def c2_slow_finding : ResearchFinding :=
  { source_agent := "slow_worker", content := "slow result"
    confidence := 9/10, sources := ["doc2"] }

/-- Two research tasks dispatched in Parallel mode. -/
def c2_tasks : List MTask :=
  [{ task_id := "task_0", query := "q" }, { task_id := "task_1", query := "q" }]

/-- The completion schedule: the first unit completes at t = 1, the second
would complete at t = 100, past the 10-second deadline. -/
def c2_units : List PUnitM :=
  [⟨1, Except.ok c2_fast_finding, 0⟩, ⟨100, Except.ok c2_slow_finding, 1⟩]

/-- C2: when a dispatched worker exceeds the deadline, the Parallel
`research` call does NOT return a `SynthesizedResult` — the uncaught
`concurrent.futures.TimeoutError` raised by `as_completed` aborts the call,
discarding even the fast worker's already-collected finding. -/
theorem c2_parallel_deadline_raises :
    research_parallel "q" c2_units c2_tasks 10
      = Except.error "concurrent.futures.TimeoutError" := by rfl

/-! ### C3: conflict detection -/

/-- A finding whose content *contains* `"price: 100"` among other text. -/
def c3_f1 : ResearchFinding :=
  { source_agent := "agent_a", content := "price: 100\nweight: 10" }

/-- A finding whose content *contains* `"price: 200"` among other text. -/
def c3_f2 : ResearchFinding :=
  { source_agent := "agent_b", content := "price: 200\nweight: 100" }

/-- C3, counterexample: two findings whose contents contain `"price: 100"`
and `"price: 200"` respectively, for which `synthesize` reports TWO
conflicts, not exactly one — the extra `weight` label also crosses the 10%
threshold, so the claim as stated (quantified over contents merely
*containing* the fragments) fails. -/
theorem c3_containment_two_conflicts :
    strContains c3_f1.content "price: 100" = true ∧
    strContains c3_f2.content "price: 200" = true ∧
    (synthesize "q" [c3_f1, c3_f2]).conflicts.length = 2 := by
  with_unfolding_all decide

/-- C3, amended: for findings whose contents are exactly `"price: 100"` and
`"price: 200"`, `synthesize` reports exactly one `numeric_conflict` for the
label `price` with both `(agent, value)` pairs (the relative gap is
`(200-100)/200 = 0.5 > 0.1`); for `"price: 100"` and `"price: 105"` no
conflict is reported (`5/105 < 0.1`). -/
theorem c3_exact_contents_conflicts (q a1 a2 : String) (conf1 conf2 : ℚ)
    (s1 s2 : List String) :
    (synthesize q [⟨a1, "price: 100", conf1, s1⟩, ⟨a2, "price: 200", conf2, s2⟩]).conflicts
      = [{ ctype := "numeric_conflict", context := "price"
           values := [(a1, 100), (a2, 200)] }]
    ∧ (synthesize q [⟨a1, "price: 100", conf1, s1⟩, ⟨a2, "price: 105", conf2, s2⟩]).conflicts
      = [] := by
  have h100 : findNumberPairs "price: 100" = [("price", "100")] := by
    with_unfolding_all decide
  have h200 : findNumberPairs "price: 200" = [("price", "200")] := by
    with_unfolding_all decide
  have h105 : findNumberPairs "price: 105" = [("price", "105")] := by
    with_unfolding_all decide
  have hv100 : parseFloatQ (stripNumChars "100".data) = some 100 := by
    with_unfolding_all decide
  have hv200 : parseFloatQ (stripNumChars "200".data) = some 200 := by
    with_unfolding_all decide
  have hv105 : parseFloatQ (stripNumChars "105".data) = some 105 := by
    with_unfolding_all decide
  have hkey : pyLower (pyStrip "price") = "price" := by with_unfolding_all decide
  constructor
  · simp [synthesize, detect_conflicts, h100, h200, hkey, hv100, hv200,
      alistPush, listMax, listMin]
    norm_num [List.filterMap, max_def, min_def]
  · simp [synthesize, detect_conflicts, h100, h105, hkey, hv100, hv105,
      alistPush, listMax, listMin]
    norm_num [List.filterMap, max_def, min_def]

/-! ### C8: chunk contiguity -/

/-- C8: the chunks of any document carry `chunk_index` values exactly
`0 .. total_chunks - 1`, in order and without gaps or repeats, and every
chunk's `total_chunks` equals the document's chunk count. -/
theorem c8_chunk_contiguity (hashFn : String → String) (cfg : ChunkerConfig)
    (content doc_id : String) (domain tenant_id : Option String)
    (tags : Option (List String)) :
    (chunk_document hashFn cfg content doc_id domain tenant_id tags).map
        (fun c => c.chunk_index)
      = List.range
          (chunk_document hashFn cfg content doc_id domain tenant_id tags).length
    ∧ ∀ c ∈ chunk_document hashFn cfg content doc_id domain tenant_id tags,
        c.total_chunks
          = (chunk_document hashFn cfg content doc_id domain tenant_id tags).length := by
  have hlen : (chunk_document hashFn cfg content doc_id domain tenant_id tags).length
      = (chunk_rows cfg content).length := by
    simp [chunk_document]
  constructor
  · rw [hlen]
    simp only [chunk_document, List.map_map]
    exact List.map_fst_zip _ _ (by simp)
  · intro c hc
    rw [hlen]
    simp only [chunk_document, List.mem_map] at hc
    obtain ⟨p, _, rfl⟩ := hc
    rfl

/-- C8, witness: the general theorem evaluated on a concrete two-section
document that produces two chunks. -/
theorem c8_witness :
    (chunk_document hash0 { min_chunk_size := 1 }
        "# A\nalpha beta gamma\n# B\ndelta epsilon" "d" none none none).map
        (fun c => c.chunk_index) = [0, 1]
    ∧ ∀ c ∈ chunk_document hash0 { min_chunk_size := 1 }
        "# A\nalpha beta gamma\n# B\ndelta epsilon" "d" none none none,
        c.total_chunks = 2 := by
  have h := c8_chunk_contiguity hash0 { min_chunk_size := 1 }
    "# A\nalpha beta gamma\n# B\ndelta epsilon" "d" none none none
  refine ⟨?_, ?_⟩
  · rw [h.1]; decide
  · intro c hc
    rw [show (2 : Nat) = (chunk_document hash0 { min_chunk_size := 1 }
        "# A\nalpha beta gamma\n# B\ndelta epsilon" "d" none none none).length
      from by decide]
    exact h.2 c hc

/-! ### C6: the reranker is a permutation -/

/-- C6: `rerank(query, results)` with no `top_k` returns a permutation of
exactly the chunk ids it was given — never more, never fewer, never a new
candidate — and an empty input is returned unchanged. -/
theorem c6_rerank_permutation (query : String) (results : List RetrievalResult) :
    ((rerank query results none).map fun r => r.chunk.chunk_id).Perm
      (results.map fun r => r.chunk.chunk_id)
    ∧ rerank query [] none = [] := by
  refine ⟨?_, rfl⟩
  simp only [rerank]
  by_cases h : results.isEmpty
  · rw [if_pos h]
  · rw [if_neg h]
    have h1 := (List.perm_insertionSort byFinalDesc
      (results.map fun r =>
        let rs := score_pair query r.chunk.content
        { r with rerank_score := rs, final_score := 3/10 * r.final_score + 7/10 * rs })).map
      (fun r : RetrievalResult => r.chunk.chunk_id)
    simpa [List.map_map] using h1

/-! ### C7: consensus confidence -/

/-- C7: for a non-empty finding list, `synthesize` sets
`consensus_confidence = mean * (1 - min(1, variance))`, and when every
confidence lies in `[0, 1]` the consensus confidence lies in `[0, 1]`. -/
theorem c7_consensus_confidence (query : String) (findings : List ResearchFinding)
    (hne : findings ≠ []) :
    (synthesize query findings).consensus_confidence
      = meanConfidence findings * (1 - min 1 (varianceConfidence findings))
    ∧ ((∀ f ∈ findings, 0 ≤ f.confidence ∧ f.confidence ≤ 1) →
        0 ≤ (synthesize query findings).consensus_confidence
        ∧ (synthesize query findings).consensus_confidence ≤ 1) := by
  have hnotempty : findings.isEmpty = false := by
    cases findings with
    | nil => exact absurd rfl hne
    | cons a l => rfl
  have hcc : (synthesize query findings).consensus_confidence
      = meanConfidence findings * (1 - min 1 (varianceConfidence findings)) := by
    simp [synthesize, hnotempty]
  refine ⟨hcc, fun hb => ?_⟩
  have hlen : (0 : ℚ) < (findings.length : ℚ) := by
    have := List.length_pos.mpr hne
    exact_mod_cast this
  have hsum0 : 0 ≤ (findings.map fun f => f.confidence).sum :=
    List.sum_nonneg fun x hx => by
      obtain ⟨f, hf, rfl⟩ := List.mem_map.mp hx
      exact (hb f hf).1
  have hsum1 : (findings.map fun f => f.confidence).sum ≤ (findings.length : ℚ) := by
    have h := List.sum_le_card_nsmul (findings.map fun f => f.confidence) 1
      (fun x hx => by
        obtain ⟨f, hf, rfl⟩ := List.mem_map.mp hx
        exact (hb f hf).2)
    simpa [nsmul_eq_mul] using h
  have hmean0 : 0 ≤ meanConfidence findings :=
    div_nonneg hsum0 (le_of_lt hlen)
  have hmean1 : meanConfidence findings ≤ 1 := by
    rw [meanConfidence, div_le_one hlen]
    exact hsum1
  have hvar0 : 0 ≤ varianceConfidence findings := by
    apply div_nonneg _ (le_of_lt hlen)
    exact List.sum_nonneg fun x hx => by
      obtain ⟨c, _, rfl⟩ := List.mem_map.mp hx
      positivity
  have hmin0 : (0 : ℚ) ≤ min 1 (varianceConfidence findings) :=
    le_min (by norm_num) hvar0
  have hmin1 : min 1 (varianceConfidence findings) ≤ 1 := min_le_left _ _
  rw [hcc]
  constructor
  · exact mul_nonneg hmean0 (by linarith)
  · exact mul_le_one₀ hmean1 (by linarith) (by linarith)

/-- C7, witness: a single finding with confidence `1/2` gives consensus
confidence `1/2`, which lies in `[0, 1]`. -/
theorem c7_witness :
    (synthesize "q" [⟨"a", "x", 1/2, []⟩]).consensus_confidence
      = meanConfidence [⟨"a", "x", 1/2, []⟩]
        * (1 - min 1 (varianceConfidence [⟨"a", "x", 1/2, []⟩]))
    ∧ 0 ≤ (synthesize "q" [⟨"a", "x", 1/2, []⟩]).consensus_confidence
    ∧ (synthesize "q" [⟨"a", "x", 1/2, []⟩]).consensus_confidence ≤ 1 := by
  have h := c7_consensus_confidence "q" [⟨"a", "x", 1/2, []⟩] (by decide)
  have hb := h.2 (by
    intro f hf
    simp only [List.mem_singleton] at hf
    subst hf
    norm_num)
  exact ⟨h.1, hb.1, hb.2⟩

/-! ### C9: worker error isolation -/

/-- A worker whose `research` call raises (used by the counterexample). -/
def c9_fail_agent : MAgent :=
  { name := "bad", focus_areas := [], research := fun _ _ => Except.error "boom" }

/-- The finding of the succeeding worker in the counterexample. -/
def c9_finding : ResearchFinding :=
  { source_agent := "good", content := "useful content", confidence := 8/10 }

/-- A worker whose `research` call succeeds (used by the counterexample). -/
def c9_ok_agent : MAgent :=
  { name := "good", focus_areas := [], research := fun _ _ => Except.ok c9_finding }

/-- C9, counterexample: in sequential mode the `except` branch has no
`break`, so after the first capable worker raises, the next capable worker
still runs; here it succeeds, and the task ends with status `"completed"`
(the error message remains recorded) — not `"failed"` as the claim states. -/
theorem c9_seq_fallthrough_completes :
    (execute_sequential [c9_fail_agent, c9_ok_agent]
        [⟨"task_0", "q", none, 1, "pending", none⟩] 30).2.map
        (fun t => (t.status, t.error))
      = [("completed", some "boom")] := by
  with_unfolding_all decide

/-- C9, amended: an exception inside one worker's `research` call is caught
by the coordinator and recorded on that task (status `"failed"`, error
message populated at that point — though in sequential mode a later capable
worker may still complete the task, overwriting the status); the exception
neither propagates to sibling tasks nor aborts the collection — the other
tasks' findings are still collected, in both sequential and parallel modes. -/
theorem c9_error_isolation
    (res : String → Option String → Except String ResearchFinding)
    (e : String) (f : ResearchFinding)
    (h1 : res "q1" none = Except.error e)
    (h2 : res "q2" none = Except.ok f) :
    execute_sequential [⟨"w", [], res, 0⟩]
        [⟨"t1", "q1", none, 1, "pending", none⟩,
         ⟨"t2", "q2", none, 1, "pending", none⟩] 1
      = ([f], [⟨"t1", "q1", none, 1, "failed", some e⟩,
               ⟨"t2", "q2", none, 1, "completed", none⟩])
    ∧ execute_parallel [⟨0, Except.error e, 0⟩, ⟨0, Except.ok f, 1⟩]
        [⟨"t1", "q1", none, 1, "pending", none⟩,
         ⟨"t2", "q2", none, 1, "pending", none⟩] 1
      = Except.ok ([f], [⟨"t1", "q1", none, 1, "failed", some e⟩,
                         ⟨"t2", "q2", none, 1, "completed", none⟩]) := by
  constructor
  · simp [execute_sequential, execSeqGo, run_first, can_handle, truthy, h1, h2,
      List.insertionSort, List.orderedInsert, byPriorityDesc, modifyAt]
    norm_num
  · simp [execute_parallel, execParGo, modifyAt,
      List.insertionSort, List.orderedInsert, byCtime]
    norm_num

/-- C9, witness: the amended theorem applied to a concrete worker that
raises on the first query and succeeds on the second. -/
theorem c9_witness :
    execute_sequential
        [⟨"w", [], fun q _ => if q = "q1" then Except.error "boom"
                              else Except.ok c9_finding, 0⟩]
        [⟨"t1", "q1", none, 1, "pending", none⟩,
         ⟨"t2", "q2", none, 1, "pending", none⟩] 1
      = ([c9_finding], [⟨"t1", "q1", none, 1, "failed", some "boom"⟩,
                        ⟨"t2", "q2", none, 1, "completed", none⟩])
    ∧ execute_parallel [⟨0, Except.error "boom", 0⟩, ⟨0, Except.ok c9_finding, 1⟩]
        [⟨"t1", "q1", none, 1, "pending", none⟩,
         ⟨"t2", "q2", none, 1, "pending", none⟩] 1
      = Except.ok ([c9_finding], [⟨"t1", "q1", none, 1, "failed", some "boom"⟩,
                                  ⟨"t2", "q2", none, 1, "completed", none⟩]) :=
  c9_error_isolation
    (fun q _ => if q = "q1" then Except.error "boom" else Except.ok c9_finding)
    "boom" c9_finding rfl rfl

/-! ### C10: untagged chunks pass the filters -/

/-- C10: a chunk whose `tenant_id` (resp. `domain`) is `None` is never
excluded by the tenant (resp. domain) filter; a chunk is excluded only when
the filter is requested and the chunk's tag is set (and non-empty) and
differs (case-insensitively for domains); and for a fully untagged chunk the
per-candidate handling of `search` is identical with and without filters. -/
theorem c10_untagged_never_filtered (domain tenant_id : Option String) (c : Chunk) :
    (c.tenant_id = none → tenant_excluded tenant_id c = false)
    ∧ (c.domain = none → domain_excluded domain c = false)
    ∧ (tenant_excluded tenant_id c = true →
        ∃ t ct, tenant_id = some t ∧ c.tenant_id = some ct ∧ ct ≠ t)
    ∧ (domain_excluded domain c = true →
        ∃ d cd, domain = some d ∧ c.domain = some cd ∧ pyUpper cd ≠ pyUpper d)
    ∧ (c.tenant_id = none → c.domain = none →
        ∀ (s : RetrieverState) (sem : List (String × ℚ)) (min_score : ℚ)
          (p : String × ℚ), alistGet p.1 s.chunks = some c →
          considerChunk s sem domain tenant_id min_score p
            = considerChunk s sem none none min_score p) := by
  refine ⟨?_, ?_, ?_, ?_, ?_⟩
  · intro h
    simp [tenant_excluded, h, truthy]
  · intro h
    simp [domain_excluded, h, truthy]
  · intro h
    match htid : tenant_id, hctid : c.tenant_id with
    | none, _ => simp [tenant_excluded, truthy] at h
    | some t, none => simp [tenant_excluded, truthy, hctid] at h
    | some t, some ct =>
      simp only [tenant_excluded, truthy, hctid, Option.getD_some, decide_eq_true_eq] at h
      exact ⟨t, ct, rfl, rfl, h.2.2⟩
  · intro h
    match hdom : domain, hcdom : c.domain with
    | none, _ => simp [domain_excluded, truthy] at h
    | some d, none => simp [domain_excluded, truthy, hcdom] at h
    | some d, some cd =>
      simp only [domain_excluded, truthy, hcdom, Option.getD_some, decide_eq_true_eq] at h
      exact ⟨d, cd, rfl, rfl, h.2.2⟩
  · intro h1 h2 s sem min_score p hget
    simp [considerChunk, hget, domain_excluded, tenant_excluded, truthy, h1, h2]

/-- C10, witness: a concrete tenant- and domain-filtered search step keeps a
concrete untagged chunk exactly as an unfiltered one would. -/
theorem c10_witness :
    tenant_excluded (some "t2") { chunk_id := "a", content := "x", doc_id := "d" } = false
    ∧ domain_excluded (some "POWER") { chunk_id := "a", content := "x", doc_id := "d" } = false
    ∧ considerChunk { chunks := [("a", { chunk_id := "a", content := "x", doc_id := "d" })] }
        [] (some "POWER") (some "t2") 0 ("a", 1)
      = considerChunk { chunks := [("a", { chunk_id := "a", content := "x", doc_id := "d" })] }
        [] none none 0 ("a", 1) := by
  have h := c10_untagged_never_filtered (some "POWER") (some "t2")
    { chunk_id := "a", content := "x", doc_id := "d" }
  exact ⟨h.1 rfl, h.2.1 rfl,
    h.2.2.2.2 rfl rfl _ [] 0 ("a", 1) (by with_unfolding_all decide)⟩

/-! ### C5: re-indexing -/

/-- The chunk-store component of `add_chunks` in isolation. -/
def chunksFold (m : List (String × Chunk)) (cs : List Chunk) : List (String × Chunk) :=
  cs.foldl (fun m c => alistSet c.chunk_id c m) m

theorem add_chunks_chunks_eq (st : RetrieverState) (cs : List Chunk) :
    (add_chunks st cs).chunks = chunksFold st.chunks cs := by
  induction cs generalizing st with
  | nil => rfl
  | cons c cs ih =>
    show (add_chunks (add_chunk st c) cs).chunks = _
    rw [ih]
    rfl

theorem alistGet_alistSet (k k2 : String) (v : Chunk) (m : List (String × Chunk)) :
    alistGet k (alistSet k2 v m) = if k2 = k then some v else alistGet k m := by
  induction m with
  | nil => simp [alistGet, alistSet]
  | cons p m ih =>
    obtain ⟨k3, v3⟩ := p
    by_cases h : k3 = k2
    · subst h
      by_cases h2 : k3 = k
      · subst h2
        simp [alistGet, alistSet]
      · simp [alistGet, alistSet, h2]
    · by_cases h2 : k3 = k
      · subst h2
        simp [alistGet, alistSet, h, Ne.symm]
      · simp [alistGet, alistSet, h, h2, ih]

/-- The last chunk in a list carrying a given id. -/
def lastWith : List Chunk → String → Option Chunk
  | [], _ => none
  | c :: cs, k =>
    match lastWith cs k with
    | some d => some d
    | none => if c.chunk_id = k then some c else none

theorem alistGet_chunksFold (cs : List Chunk) (m : List (String × Chunk)) (k : String) :
    alistGet k (chunksFold m cs)
      = match lastWith cs k with
        | some d => some d
        | none => alistGet k m := by
  induction cs generalizing m with
  | nil => rfl
  | cons c cs ih =>
    show alistGet k (chunksFold (alistSet c.chunk_id c m) cs) = _
    rw [ih]
    cases hl : lastWith cs k with
    | some d => simp [lastWith, hl]
    | none =>
      rw [alistGet_alistSet]
      by_cases h : c.chunk_id = k
      · simp [lastWith, hl, h]
      · simp [lastWith, hl, h]

/-- C5, amended: re-indexing a document with identical content and `doc_id`
yields identical chunk ids and the same chunk count — every chunk id is
determined by the `doc_id` and the chunk ordinal alone — and the second
`add_chunks` call leaves the chunk store unchanged (every id maps to the
same chunk).  The inverted index, however, receives duplicate postings (see
the counterexample), so full search behaviour is NOT preserved. -/
theorem c5_reindex_ids_and_store (hashFn : String → String) (cfg : ChunkerConfig)
    (content doc_id : String) (domain tenant_id : Option String)
    (tags : Option (List String)) (st : RetrieverState) (cs : List Chunk)
    (k : String) :
    ((chunk_document hashFn cfg content doc_id domain tenant_id tags).map
        fun c => c.chunk_id)
      = (List.range (chunk_rows cfg content).length).map
          (generate_chunk_id hashFn doc_id)
    ∧ alistGet k (add_chunks (add_chunks st cs) cs).chunks
      = alistGet k (add_chunks st cs).chunks := by
  constructor
  · simp only [chunk_document, List.map_map]
    have hfun : ((fun c : Chunk => c.chunk_id) ∘
        (fun p : Nat × (Option String × String × Nat × Nat) =>
          ({ chunk_id := generate_chunk_id hashFn doc_id p.1
             content := p.2.2.1
             doc_id := doc_id
             chunk_index := p.1
             total_chunks := (chunk_rows cfg content).length
             section_title := p.2.1
             context_summary := some (generate_context_summary p.2.1 p.2.2.1
               p.2.2.2.1 p.2.2.2.2)
             domain := domain
             tenant_id := tenant_id
             tags := tags.getD [] } : Chunk)))
        = (generate_chunk_id hashFn doc_id) ∘ Prod.fst := rfl
    rw [hfun, ← List.map_map]
    rw [List.map_fst_zip _ _ (by simp)]
  · rw [add_chunks_chunks_eq, add_chunks_chunks_eq,
      alistGet_chunksFold, alistGet_chunksFold]
    cases hl : lastWith cs k with
    | some d => simp
    | none => simp [hl]

/-- Document A of the counterexample (one chunk, token `alpha` twice in ten
tokens). -/
def c5_contentA : String := "alpha alpha beta gamma delta epsilon zeta eta theta iota"

/-- Document B of the counterexample (one chunk, token `alpha` once in ten
tokens). -/
def c5_contentB : String := "alpha beta beta beta gamma gamma delta delta epsilon zeta"

/-- The retriever after indexing A once and B once. -/
def c5_once : RetrieverState :=
  add_chunks
    (add_chunks (initHybrid (2/5) (3/5) false)
      (chunk_document hash0 {} c5_contentA "docA" none none none))
    (chunk_document hash0 {} c5_contentB "docB" none none none)

/-- The retriever after additionally re-indexing A with identical content
and `doc_id`. -/
def c5_twice : RetrieverState :=
  add_chunks c5_once (chunk_document hash0 {} c5_contentA "docA" none none none)

/-- C5, counterexample: re-indexing document A duplicates its postings in
the inverted index, which changes the document frequency and doubles A's
accumulated scores; the same query then returns different normalized
keyword scores (B drops from `1/2` to `1/4`), so observable search behaviour
after indexing twice differs from indexing once. -/
theorem c5_reindex_changes_search :
    ((searchR c5_once "alpha" 5 none none 0).map fun r => r.keyword_score) = [1, 1/2]
    ∧ ((searchR c5_twice "alpha" 5 none none 0).map fun r => r.keyword_score) = [1, 1/4] := by
  with_unfolding_all decide

/-! ### C4: score normalization

Supporting invariants: in any retriever state built with `add_chunks`, every
posting carries a strictly positive term frequency and refers to a stored
chunk; hence every accumulated keyword score is positive, the normalizing
maximum is positive, and the top score after normalization is exactly 1. -/

/-- Every posting in the index has positive tf and refers to a stored chunk. -/
def IndexOK (s : RetrieverState) : Prop :=
  ∀ p ∈ s.index, ∀ q ∈ p.2, 0 < q.2 ∧ ∃ ch, alistGet q.1 s.chunks = some ch

theorem alistGet_mem {β : Type} {k : String} {v : β} :
    ∀ {l : List (String × β)}, alistGet k l = some v → (k, v) ∈ l := by
  intro l
  induction l with
  | nil => intro h; simp [alistGet] at h
  | cons p l ih =>
    intro h
    rw [alistGet] at h
    split at h
    · rename_i heq
      obtain ⟨rfl⟩ := Option.some.inj h
      exact heq ▸ List.mem_cons_self _ _
    · exact List.mem_cons_of_mem _ (ih h)

theorem alistIncr_pos (k : String) :
    ∀ (m : List (String × Nat)), (∀ p ∈ m, 1 ≤ p.2) →
      ∀ p ∈ alistIncr k m, 1 ≤ p.2 := by
  intro m
  induction m with
  | nil =>
    intro _ p hp
    simp [alistIncr] at hp
    simp [hp]
  | cons q m ih =>
    intro hm p hp
    rw [alistIncr] at hp
    split at hp
    · rcases List.mem_cons.mp hp with h | h
      · subst h
        have := hm q (List.mem_cons_self _ _)
        omega
      · exact hm p (List.mem_cons_of_mem _ h)
    · rcases List.mem_cons.mp hp with h | h
      · subst h
        exact hm q (List.mem_cons_self _ _)
      · exact ih (fun r hr => hm r (List.mem_cons_of_mem _ hr)) p h

theorem counts_pos (toks : List String) :
    ∀ (acc : List (String × Nat)), (∀ p ∈ acc, 1 ≤ p.2) →
      ∀ p ∈ toks.foldl (fun m t => if 2 < t.length then alistIncr t m else m) acc,
        1 ≤ p.2 := by
  induction toks with
  | nil => intro acc hacc p hp; exact hacc p hp
  | cons t toks ih =>
    intro acc hacc p hp
    rw [List.foldl_cons] at hp
    by_cases h : 2 < t.length
    · rw [if_pos h] at hp
      exact ih _ (alistIncr_pos t acc hacc) p hp
    · rw [if_neg h] at hp
      exact ih _ hacc p hp

theorem postAdd_pres (P : String × ℚ → Prop) (tok cid : String) (tf : ℚ)
    (hq : P (cid, tf)) :
    ∀ (ix : List (String × List (String × ℚ))),
      (∀ p ∈ ix, ∀ q ∈ p.2, P q) →
      ∀ p ∈ postAdd tok cid tf ix, ∀ q ∈ p.2, P q := by
  intro ix
  induction ix with
  | nil =>
    intro _ p hp q hq2
    simp [postAdd] at hp
    subst hp
    simp at hq2
    exact hq2 ▸ hq
  | cons r ix ih =>
    intro hix p hp q hq2
    rw [postAdd] at hp
    split at hp
    · rcases List.mem_cons.mp hp with h | h
      · subst h
        simp only at hq2
        rcases List.mem_append.mp hq2 with h2 | h2
        · exact hix r (List.mem_cons_self _ _) q h2
        · simp at h2
          exact h2 ▸ hq
      · exact hix p (List.mem_cons_of_mem _ h) q hq2
    · rcases List.mem_cons.mp hp with h | h
      · subst h
        exact hix r (List.mem_cons_self _ _) q hq2
      · exact ih (fun r2 hr2 => hix r2 (List.mem_cons_of_mem _ hr2)) p h q hq2

theorem index_fold_pres (P : String × ℚ → Prop) (cid : String) (total : Nat)
    (hnew : ∀ n : Nat, 1 ≤ n → P (cid, (n : ℚ) / (total : ℚ)))
    (counts : List (String × Nat)) (hcounts : ∀ p ∈ counts, 1 ≤ p.2) :
    ∀ (ix : List (String × List (String × ℚ))),
      (∀ p ∈ ix, ∀ q ∈ p.2, P q) →
      ∀ p ∈ counts.foldl
          (fun ix p => postAdd p.1 cid ((p.2 : ℚ) / (total : ℚ)) ix) ix,
        ∀ q ∈ p.2, P q := by
  induction counts with
  | nil => intro ix hix p hp q hq; exact hix p hp q hq
  | cons cp counts ih =>
    intro ix hix p hp q hq
    rw [List.foldl_cons] at hp
    refine ih (fun r hr => hcounts r (List.mem_cons_of_mem _ hr)) _ ?_ p hp q hq
    exact postAdd_pres P cp.1 cid _
      (hnew cp.2 (hcounts cp (List.mem_cons_self _ _))) ix hix

theorem store_get_set_self (k : String) (c : Chunk) (m : List (String × Chunk)) :
    alistGet k (alistSet k c m) = some c := by
  rw [alistGet_alistSet]
  simp

theorem add_chunk_indexOK (s : RetrieverState) (c : Chunk) (h : IndexOK s) :
    IndexOK (add_chunk s c) := by
  intro p hp q hq
  have hstore : ∀ k, (∃ ch, alistGet k s.chunks = some ch) →
      ∃ ch, alistGet k (alistSet c.chunk_id c s.chunks) = some ch := by
    intro k ⟨ch, hch⟩
    rw [alistGet_alistSet]
    split
    · exact ⟨c, rfl⟩
    · exact ⟨ch, hch⟩
  have htotal : (0 : ℚ) <
      ((if (tokenize (pyLower c.content)).length = 0 then 1
        else (tokenize (pyLower c.content)).length : Nat) : ℚ) := by
    have : 1 ≤ (if (tokenize (pyLower c.content)).length = 0 then 1
        else (tokenize (pyLower c.content)).length : Nat) := by
      split <;> omega
    exact_mod_cast Nat.lt_of_lt_of_le Nat.zero_lt_one this
  refine index_fold_pres
    (fun q => 0 < q.2 ∧ ∃ ch, alistGet q.1 (add_chunk s c).chunks = some ch)
    c.chunk_id _ ?_ _ (counts_pos _ [] (by simp)) s.index ?_ p hp q hq
  · intro n hn
    constructor
    · apply div_pos _ htotal
      exact_mod_cast Nat.lt_of_lt_of_le Nat.zero_lt_one hn
    · exact ⟨c, store_get_set_self _ _ _⟩
  · intro p2 hp2 q2 hq2
    obtain ⟨hpos, hex⟩ := h p2 hp2 q2 hq2
    exact ⟨hpos, hstore _ hex⟩

theorem add_chunks_indexOK (cs : List Chunk) :
    ∀ (s : RetrieverState), IndexOK s → IndexOK (add_chunks s cs) := by
  induction cs with
  | nil => intro s h; exact h
  | cons c cs ih =>
    intro s h
    exact ih (add_chunk s c) (add_chunk_indexOK s c h)

theorem initHybrid_indexOK (kw sem : ℚ) (useSem : Bool) :
    IndexOK (initHybrid kw sem useSem) := by
  intro p hp
  simp [initHybrid] at hp

/-- `add_chunks` only touches the index and the chunk store. -/
theorem add_chunks_use_semantic (cs : List Chunk) :
    ∀ (s : RetrieverState), (add_chunks s cs).use_semantic = s.use_semantic := by
  induction cs with
  | nil => intro s; rfl
  | cons c cs ih => intro s; rw [show add_chunks s (c :: cs) = add_chunks (add_chunk s c) cs from rfl, ih]; rfl

theorem idf_pos (df N : ℚ) (hdf : 0 ≤ df) (hN : 0 ≤ N) :
    0 < 1 + (N - df + 1/2) / (df + 1/2) := by
  have hd : 0 < df + 1/2 := by linarith
  have : 1 + (N - df + 1/2) / (df + 1/2) = (N + 1) / (df + 1/2) := by
    field_simp
    ring
  rw [this]
  positivity

theorem alistAddQ_pres (P : String → Prop) (k : String) (x : ℚ) (hx : 0 < x)
    (hk : P k) :
    ∀ (m : List (String × ℚ)), (∀ p ∈ m, 0 < p.2 ∧ P p.1) →
      ∀ p ∈ alistAddQ k x m, 0 < p.2 ∧ P p.1 := by
  intro m
  induction m with
  | nil =>
    intro _ p hp
    simp [alistAddQ] at hp
    subst hp
    exact ⟨hx, hk⟩
  | cons q m ih =>
    intro hm p hp
    rw [alistAddQ] at hp
    split at hp
    · rcases List.mem_cons.mp hp with h | h
      · subst h
        have hq := hm q (List.mem_cons_self _ _)
        refine ⟨?_, hq.2⟩
        show 0 < q.2 + x
        linarith [hq.1]
      · exact hm p (List.mem_cons_of_mem _ h)
    · rcases List.mem_cons.mp hp with h | h
      · subst h
        exact hm q (List.mem_cons_self _ _)
      · exact ih (fun r hr => hm r (List.mem_cons_of_mem _ hr)) p h

theorem fold_addQ_pres (Ex : String → Prop) (idf : ℚ) (hidf : 0 < idf)
    (ps : List (String × ℚ)) (hps : ∀ q ∈ ps, 0 < q.2 ∧ Ex q.1) :
    ∀ (sc : List (String × ℚ)), (∀ p ∈ sc, 0 < p.2 ∧ Ex p.1) →
      ∀ p ∈ ps.foldl (fun sc q => alistAddQ q.1 (q.2 * idf) sc) sc,
        0 < p.2 ∧ Ex p.1 := by
  induction ps with
  | nil => intro sc hsc p hp; exact hsc p hp
  | cons q ps ihq =>
    intro sc hsc p hp
    rw [List.foldl_cons] at hp
    have hq := hps q (List.mem_cons_self _ _)
    refine ihq (fun r hr => hps r (List.mem_cons_of_mem _ hr)) _ ?_ p hp
    exact alistAddQ_pres Ex q.1 _ (mul_pos hq.1 hidf) hq.2 sc hsc

theorem kw_token_step_inv (s : RetrieverState) (t : String) (hs : IndexOK s)
    (acc : List (String × ℚ))
    (hacc : ∀ p ∈ acc, 0 < p.2 ∧ ∃ ch, alistGet p.1 s.chunks = some ch) :
    ∀ p ∈ kw_token_step s acc t,
      0 < p.2 ∧ ∃ ch, alistGet p.1 s.chunks = some ch := by
  rw [kw_token_step]
  cases hidx : alistGet t s.index with
  | none => exact hacc
  | some postings =>
    simp only
    have hidf : (0 : ℚ) < 1 +
        (((if s.chunks.length = 0 then 1 else s.chunks.length : Nat) : ℚ)
          - (postings.length : ℚ) + 1/2) / ((postings.length : ℚ) + 1/2) :=
      idf_pos _ _ (by positivity) (by positivity)
    exact fold_addQ_pres (fun k => ∃ ch, alistGet k s.chunks = some ch) _ hidf
      postings (hs (t, postings) (alistGet_mem hidx)) acc hacc

theorem raw_scores_inv (s : RetrieverState) (query : String) (hs : IndexOK s) :
    ∀ p ∈ keyword_scores_raw s query,
      0 < p.2 ∧ ∃ ch, alistGet p.1 s.chunks = some ch := by
  rw [keyword_scores_raw]
  generalize (tokenize (pyLower query)) = toks
  have main : ∀ (toks : List String) (acc : List (String × ℚ)),
      (∀ p ∈ acc, 0 < p.2 ∧ ∃ ch, alistGet p.1 s.chunks = some ch) →
      ∀ p ∈ toks.foldl (kw_token_step s) acc,
        0 < p.2 ∧ ∃ ch, alistGet p.1 s.chunks = some ch := by
    intro toks
    induction toks with
    | nil => intro acc hacc p hp; exact hacc p hp
    | cons t toks ih =>
      intro acc hacc p hp
      rw [List.foldl_cons] at hp
      exact ih _ (kw_token_step_inv s t hs acc hacc) p hp
  exact main toks [] (by simp)

theorem foldl_max_ge_init (l : List (String × ℚ)) :
    ∀ v : ℚ, v ≤ l.foldl (fun m p => max m p.2) v := by
  induction l with
  | nil => intro v; simp
  | cons p l ih =>
    intro v
    rw [List.foldl_cons]
    exact le_trans (le_max_left v p.2) (ih (max v p.2))

theorem foldl_max_ge_mem (l : List (String × ℚ)) :
    ∀ (v : ℚ), ∀ p ∈ l, p.2 ≤ l.foldl (fun m q => max m q.2) v := by
  induction l with
  | nil => intro v p hp; simp at hp
  | cons q l ih =>
    intro v p hp
    rw [List.foldl_cons]
    rcases List.mem_cons.mp hp with h | h
    · subst h
      exact le_trans (le_max_right v p.2) (foldl_max_ge_init l _)
    · exact ih _ p h

theorem foldl_max_attained (l : List (String × ℚ)) :
    ∀ v : ℚ, l.foldl (fun m q => max m q.2) v = v
      ∨ ∃ p ∈ l, l.foldl (fun m q => max m q.2) v = p.2 := by
  induction l with
  | nil => intro v; left; rfl
  | cons q l ih =>
    intro v
    rw [List.foldl_cons]
    rcases ih (max v q.2) with h | ⟨p, hp, hp2⟩
    · rcases max_choice v q.2 with h2 | h2
      · left; rw [h, h2]
      · right; exact ⟨q, List.mem_cons_self _ _, by rw [h, h2]⟩
    · right; exact ⟨p, List.mem_cons_of_mem _ hp, hp2⟩

theorem le_maxVals (scores : List (String × ℚ)) :
    ∀ p ∈ scores, p.2 ≤ maxVals scores := by
  intro p hp
  cases scores with
  | nil => simp at hp
  | cons q rest =>
    rw [maxVals]
    rcases List.mem_cons.mp hp with h | h
    · subst h
      exact foldl_max_ge_init rest p.2
    · exact foldl_max_ge_mem rest q.2 p h

theorem maxVals_attained (scores : List (String × ℚ)) (h : scores ≠ []) :
    ∃ p ∈ scores, p.2 = maxVals scores := by
  cases scores with
  | nil => exact absurd rfl h
  | cons q rest =>
    rw [maxVals]
    rcases foldl_max_attained rest q.2 with h2 | ⟨p, hp, hp2⟩
    · exact ⟨q, List.mem_cons_self _ _, h2.symm⟩
    · exact ⟨p, List.mem_cons_of_mem _ hp, hp2.symm⟩

theorem maxVals_pos (scores : List (String × ℚ)) (hne : scores ≠ [])
    (hpos : ∀ p ∈ scores, 0 < p.2) : 0 < maxVals scores := by
  obtain ⟨p, hp, hp2⟩ := maxVals_attained scores hne
  exact hp2 ▸ hpos p hp

theorem keyword_search_eq (s : RetrieverState) (query : String)
    (hraw : keyword_scores_raw s query ≠ [])
    (hm : 0 < maxVals (keyword_scores_raw s query)) :
    keyword_search s query
      = (keyword_scores_raw s query).map
          (fun p => (p.1, p.2 / maxVals (keyword_scores_raw s query))) := by
  rw [keyword_search]
  rw [if_pos (by simpa [List.isEmpty_iff] using hraw), if_pos hm]

/-- C4, amended: for every keyword search (`use_semantic = False`) over a
state built by `add_chunks`, with NO domain/tenant filter — `min_score` and
the result limit may be in effect — a non-empty result set contains a result
with `keyword_score` exactly 1, and every returned `keyword_score` is at
most 1.  (With a domain or tenant filter the property fails: the filter can
remove the top-scoring chunk after normalization — see the counterexample.) -/
theorem c4_no_filter_max_keyword_one (kw_w sem_w : ℚ) (cs : List Chunk)
    (query : String) (limit : Nat) (min_score : ℚ)
    (hne : searchR (add_chunks (initHybrid kw_w sem_w false) cs) query limit
      none none min_score ≠ []) :
    (∃ r ∈ searchR (add_chunks (initHybrid kw_w sem_w false) cs) query limit
        none none min_score, r.keyword_score = 1)
    ∧ ∀ r ∈ searchR (add_chunks (initHybrid kw_w sem_w false) cs) query limit
        none none min_score, r.keyword_score ≤ 1 := by
  set s := add_chunks (initHybrid kw_w sem_w false) cs with hs_def
  have hOK : IndexOK s := add_chunks_indexOK cs _ (initHybrid_indexOK _ _ _)
  have hsem : s.use_semantic = false := by
    rw [hs_def, add_chunks_use_semantic]
    rfl
  have hsearch : searchR s query limit none none min_score
      = (((keyword_search s query).filterMap
            (considerChunk s [] none none min_score)).insertionSort
              byFinalDesc).take limit := by
    rw [searchR, hsem]
    rfl
  set kw := keyword_search s query with hkw_def
  set results := kw.filterMap (considerChunk s [] none none min_score)
    with hres_def
  set sorted := results.insertionSort byFinalDesc with hsorted_def
  -- non-emptiness propagates inward
  have hsortedne : sorted ≠ [] := by
    intro h
    exact hne (by rw [hsearch, h, List.take_nil])
  have hresne : results ≠ [] := by
    intro h
    apply hsortedne
    rw [hsorted_def, h]
    rfl
  have hkwne : kw ≠ [] := by
    intro h
    apply hresne
    rw [hres_def, h]
    rfl
  have hrawne : keyword_scores_raw s query ≠ [] := by
    intro h
    apply hkwne
    rw [hkw_def, keyword_search, h]
    rfl
  have hrawinv := raw_scores_inv s query hOK
  have hmpos : 0 < maxVals (keyword_scores_raw s query) :=
    maxVals_pos _ hrawne fun p hp => (hrawinv p hp).1
  have hkweq : kw = (keyword_scores_raw s query).map
      (fun p => (p.1, p.2 / maxVals (keyword_scores_raw s query))) :=
    keyword_search_eq s query hrawne hmpos
  have hkwle : ∀ p ∈ kw, p.2 ≤ 1 := by
    rw [hkweq]
    intro p hp
    obtain ⟨q, hq, rfl⟩ := List.mem_map.mp hp
    exact (div_le_one hmpos).mpr (le_maxVals _ q hq)
  -- what membership in the candidate list means
  have hresfact : ∀ r ∈ results,
      r.final_score = r.keyword_score ∧ (∃ p ∈ kw, r.keyword_score = p.2)
        ∧ min_score ≤ r.final_score := by
    intro r hr
    obtain ⟨p, hp, hfp⟩ := List.mem_filterMap.mp hr
    rw [considerChunk] at hfp
    split at hfp
    · simp at hfp
    · rename_i c hget
      rw [if_neg (by simp [domain_excluded, truthy]),
        if_neg (by simp [tenant_excluded, truthy])] at hfp
      simp only [hsem, Bool.false_eq_true, if_false] at hfp
      split at hfp
      · simp at hfp
      · rename_i hmin
        obtain ⟨rfl⟩ := Option.some.inj hfp
        exact ⟨rfl, ⟨p, hp, rfl⟩, not_lt.mp hmin⟩
  have hresle : ∀ r ∈ results, r.keyword_score ≤ 1 := by
    intro r hr
    obtain ⟨_, ⟨p, hp, hp2⟩, _⟩ := hresfact r hr
    exact hp2 ▸ hkwle p hp
  -- min_score is at most 1 since some candidate survived the threshold
  have hmin1 : min_score ≤ 1 := by
    obtain ⟨r, hr⟩ := List.exists_mem_of_ne_nil results hresne
    obtain ⟨hfs, ⟨p, hp, hp2⟩, hms⟩ := hresfact r hr
    calc min_score ≤ r.final_score := hms
      _ = r.keyword_score := hfs
      _ ≤ 1 := hresle r hr
  -- the normalized top entry yields a candidate with keyword score 1
  obtain ⟨p0, hp0, hp0max⟩ := maxVals_attained _ hrawne
  obtain ⟨hpos0, c0, hc0⟩ := hrawinv p0 hp0
  have hp0kw : (p0.1, (1 : ℚ)) ∈ kw := by
    rw [hkweq]
    have : (p0.1, (1 : ℚ)) = (p0.1, p0.2 / maxVals (keyword_scores_raw s query)) := by
      rw [hp0max, div_self (ne_of_gt hmpos)]
    rw [this]
    exact List.mem_map_of_mem _ hp0
  have hr0 : considerChunk s [] none none min_score (p0.1, (1 : ℚ))
      = some { chunk := c0, keyword_score := 1, semantic_score := 0,
               final_score := 1, retrieval_method := "keyword" } := by
    have hd0 : domain_excluded none c0 = false := by simp [domain_excluded, truthy]
    have ht0 : tenant_excluded none c0 = false := by simp [tenant_excluded, truthy]
    simp only [considerChunk, hc0, hd0, ht0, hsem, Bool.false_eq_true, if_false]
    rw [if_neg (not_lt.mpr hmin1)]
    rfl
  have hr0res : ({ chunk := c0, keyword_score := 1, semantic_score := 0,
                   final_score := 1, retrieval_method := "keyword" } : RetrievalResult)
      ∈ results :=
    List.mem_filterMap.mpr ⟨(p0.1, 1), hp0kw, hr0⟩
  -- the head of the sorted list scores 1
  have hperm : sorted.Perm results := List.perm_insertionSort _ _
  have hsortsorted : sorted.Sorted byFinalDesc :=
    List.sorted_insertionSort byFinalDesc results
  cases hsrt : sorted with
  | nil => exact absurd hsrt hsortedne
  | cons hd tl =>
    have hhdres : hd ∈ results := by
      rw [hsrt] at hperm
      exact hperm.mem_iff.mp (List.mem_cons_self _ _)
    have hr0sorted : ({ chunk := c0, keyword_score := 1, semantic_score := 0,
                        final_score := 1, retrieval_method := "keyword" } : RetrievalResult)
        ∈ sorted := (hperm.mem_iff).mpr hr0res
    have h1hd : (1 : ℚ) ≤ hd.final_score := by
      rw [hsrt] at hr0sorted
      rcases List.mem_cons.mp hr0sorted with h | h
      · rw [← h]
      · rw [hsrt] at hsortsorted
        exact List.rel_of_sorted_cons hsortsorted _ h
    have hhdkw : hd.keyword_score = 1 := by
      obtain ⟨hfs, _, _⟩ := hresfact hd hhdres
      have hle := hresle hd hhdres
      have : (1 : ℚ) ≤ hd.keyword_score := by rw [← hfs]; exact h1hd
      linarith
    have hlim : limit ≠ 0 := by
      intro h
      exact hne (by rw [hsearch, h, List.take_zero])
    obtain ⟨n, rfl⟩ := Nat.exists_eq_succ_of_ne_zero hlim
    have hout : searchR s query (n + 1) none none min_score = hd :: tl.take n := by
      rw [hsearch, hsrt, List.take_succ_cons]
    constructor
    · exact ⟨hd, by rw [hout]; exact List.mem_cons_self _ _, hhdkw⟩
    · intro r hr
      rw [hout] at hr
      have hrsorted : r ∈ sorted := by
        rw [hsrt]
        rcases List.mem_cons.mp hr with h | h
        · exact h ▸ List.mem_cons_self _ _
        · exact List.mem_cons_of_mem _ (List.take_subset n tl h)
      exact hresle r (hperm.mem_iff.mp hrsorted)

/-- Two chunks with different tenants; the `t1` chunk scores higher on the
query token. -/
def c4_chunkA : Chunk :=
  { chunk_id := "a", content := "cat cat dog", doc_id := "dA", tenant_id := some "t1" }

/-- The lower-scoring chunk, tagged with tenant `t2`. -/
def c4_chunkB : Chunk :=
  { chunk_id := "b", content := "cat dog dog dog", doc_id := "dB", tenant_id := some "t2" }

/-- The retriever holding both chunks. -/
def c4_state : RetrieverState :=
  add_chunks (initHybrid (2/5) (3/5) false) [c4_chunkA, c4_chunkB]

/-- C4, counterexample: scores are normalized before filtering, so a tenant
filter that excludes the top-scoring chunk leaves a non-empty result set
whose maximum `keyword_score` is `3/8`, not `1.0` — the claim fails when a
tenant (or domain) filter is in effect. -/
theorem c4_filtered_max_below_one :
    ((searchR c4_state "cat" 5 none (some "t2") 0).map fun r => r.keyword_score)
      = [3/8]
    ∧ ∀ r ∈ searchR c4_state "cat" 5 none (some "t2") 0, r.keyword_score < 1 := by
  with_unfolding_all decide

/-- C4, witness: the amended theorem applied to the same two chunks with no
tenant filter; the top keyword score is exactly 1. -/
theorem c4_witness :
    searchR (add_chunks (initHybrid (2/5) (3/5) false) [c4_chunkA, c4_chunkB])
        "cat" 5 none none 0 ≠ []
    ∧ ((∃ r ∈ searchR (add_chunks (initHybrid (2/5) (3/5) false)
          [c4_chunkA, c4_chunkB]) "cat" 5 none none 0, r.keyword_score = 1)
      ∧ ∀ r ∈ searchR (add_chunks (initHybrid (2/5) (3/5) false)
          [c4_chunkA, c4_chunkB]) "cat" 5 none none 0, r.keyword_score ≤ 1) :=
  ⟨by with_unfolding_all decide,
   c4_no_filter_max_keyword_one (2/5) (3/5) [c4_chunkA, c4_chunkB] "cat" 5 0
     (by with_unfolding_all decide)⟩

end BES
